import Mathlib

/-!
Verification of the `mini-tools` repository (two Python CLI utilities):

* `src/json-flattener/json_flattener.py` — `JsonFlattener.flatten` recursively
  flattens a nested JSON value into a single-level dict, and
  `AppJsonFlattener.main` drives it (path validation, overwrite gating, I/O).
* `src/csv2json-converter/csv2json.py` — `Csv2JsonConverter.convert` turns a
  CSV file into a JSON array of row objects.

The embedding below models Python dicts as insertion-ordered association
lists with unique keys (CPython semantics: assigning to an existing key keeps
its position and replaces the value; assigning a fresh key appends), JSON
values as an inductive tree, and each driver as a pure function from an
explicit environment (file-existence flags, file content) to
`Except PyExc result`, mirroring the `raise` / `try` / `except` control flow
of the source.  File reads and writes themselves are modelled as succeeding;
the claims under study only concern the values computed and the
classification of errors raised by the repository's own code.
-/

namespace MiniTools

/-- JSON scalar values (string, number, boolean, null).  Numbers are modelled
as integers; no claim depends on non-integral numerics. -/
inductive Scalar where
  | str (s : String)
  | int (n : Int)
  | bool (b : Bool)
  | null
deriving DecidableEq, Repr

/-- A JSON document: objects are insertion-ordered string-keyed association
lists (as produced by Python's `json.load`), arrays are ordered lists, and
everything else is a scalar leaf. -/
inductive Json where
  | obj (kvs : List (String × Json))
  | arr (xs : List Json)
  | prim (s : Scalar)

/-- One step of a path into a JSON tree: either an object key (a `str` dict
key in Python) or an array index (an `int` key produced by
`dict(enumerate(...))`). -/
inductive JKey where
  | name (k : String)
  | idx (i : Nat)
deriving DecidableEq, Repr

/-- Python's `str(k)` for a dict key `k` that is either a string or an
integer index. -/
def keyStr : JKey → String
  | .name k => k
  | .idx i => toString i

/-- Line 67 of `json_flattener.py`:
`sep = self.list_sep if isinstance(k, int) else self.dict_sep`. -/
def keySep (ds ls : String) : JKey → String
  | .name _ => ds
  | .idx _ => ls

/-- Line 70 of `json_flattener.py`:
`cur_key = f"{parent_key}{sep}{k}" if parent_key else str(k)` —
the Python truthiness test on `parent_key` is the emptiness test. -/
def joinKey (ds ls pk : String) (k : JKey) : String :=
  if pk = "" then keyStr k else pk ++ keySep ds ls k ++ keyStr k

/-- CPython dict assignment `d[k] = v`: if `k` is already a key its entry
keeps its position and the value is replaced, otherwise the new entry is
appended at the end. -/
def dictInsert (d : List (String × Scalar)) (k : String) (v : Scalar) :
    List (String × Scalar) :=
  if d.any (fun p => p.1 == k) then
    d.map (fun p => if p.1 == k then (k, v) else p)
  else d ++ [(k, v)]

/-- CPython `d.update(e)`: assign every entry of `e` into `d`, in `e`'s
iteration order. -/
def dictUpdate (d e : List (String × Scalar)) : List (String × Scalar) :=
  e.foldl (fun acc p => dictInsert acc p.1 p.2) d

mutual
/-- `JsonFlattener.flatten(data, parent_key)` (lines 41–82 of
`json_flattener.py`), for a flattener configured with separators `ds`
(`dict_sep`) and `ls` (`list_sep`).

* a scalar with empty `parent_key` returns the empty dict (lines 59–60);
  for a scalar with non-empty `parent_key` the Python code would raise
  `AttributeError` at `data.items()`, but that configuration is unreachable:
  the recursion (lines 74 and 77) only ever passes dicts, and the program's
  sole top-level call (`self.flatten(data)`, line 115) uses the default
  empty `parent_key`.  We return the empty dict in that dead branch.
* a list is reinterpreted as `dict(enumerate(...))` (line 63), i.e. an
  object with integer keys `0, 1, 2, …` in order;
* each entry is processed in insertion order by the loop of lines 65–80,
  threading the accumulator `flat_data`. -/
def flatten (ds ls : String) : Json → String → List (String × Scalar)
  | .prim _, _ => []
  | .obj kvs, pk => flattenObj ds ls pk kvs []
  | .arr xs, pk => flattenArr ds ls pk 0 xs []

/-- The loop of lines 65–80 of `json_flattener.py`, specialised to an object:
every key is a `str`, so the chosen separator is `dict_sep`.  A dict value
recurses (line 74), a list value recurses on its enumeration (line 77) —
which is exactly `flatten` on the array — and a scalar is assigned
(line 80). -/
def flattenObj (ds ls pk : String) :
    List (String × Json) → List (String × Scalar) → List (String × Scalar)
  | [], acc => acc
  | (k, v) :: rest, acc =>
    match v with
    | .prim s => flattenObj ds ls pk rest (dictInsert acc (joinKey ds ls pk (.name k)) s)
    | .obj kvs => flattenObj ds ls pk rest
        (dictUpdate acc (flatten ds ls (.obj kvs) (joinKey ds ls pk (.name k))))
    | .arr xs => flattenObj ds ls pk rest
        (dictUpdate acc (flatten ds ls (.arr xs) (joinKey ds ls pk (.name k))))

/-- The loop of lines 65–80 of `json_flattener.py`, specialised to
`dict(enumerate(...))` of an array: every key is an `int` (`i` counting from
0), so the chosen separator is `list_sep`. -/
def flattenArr (ds ls pk : String) :
    Nat → List Json → List (String × Scalar) → List (String × Scalar)
  | _, [], acc => acc
  | i, v :: rest, acc =>
    match v with
    | .prim s => flattenArr ds ls pk (i + 1) rest (dictInsert acc (joinKey ds ls pk (.idx i)) s)
    | .obj kvs => flattenArr ds ls pk (i + 1) rest
        (dictUpdate acc (flatten ds ls (.obj kvs) (joinKey ds ls pk (.idx i))))
    | .arr xs => flattenArr ds ls pk (i + 1) rest
        (dictUpdate acc (flatten ds ls (.arr xs) (joinKey ds ls pk (.idx i))))
end

mutual
/-- The ordered sequence of (synthesized key, scalar) assignments that
`flatten` performs: the same traversal as `flatten` but collecting the
assignments of line 80 of `json_flattener.py` by concatenation instead of
folding them into a dict.  `flatten` is this sequence folded through dict
assignment (last write wins). -/
def flatLeaves (ds ls : String) : Json → String → List (String × Scalar)
  | .prim _, _ => []
  | .obj kvs, pk => flatLeavesObj ds ls pk kvs
  | .arr xs, pk => flatLeavesArr ds ls pk 0 xs

/-- Assignment sequence of the loop of lines 65–80, object case. -/
def flatLeavesObj (ds ls pk : String) : List (String × Json) → List (String × Scalar)
  | [] => []
  | (k, v) :: rest =>
    (match v with
     | .prim s => [(joinKey ds ls pk (.name k), s)]
     | .obj kvs => flatLeaves ds ls (.obj kvs) (joinKey ds ls pk (.name k))
     | .arr xs => flatLeaves ds ls (.arr xs) (joinKey ds ls pk (.name k))) ++
    flatLeavesObj ds ls pk rest

/-- Assignment sequence of the loop of lines 65–80, enumerated-array case. -/
def flatLeavesArr (ds ls pk : String) : Nat → List Json → List (String × Scalar)
  | _, [] => []
  | i, v :: rest =>
    (match v with
     | .prim s => [(joinKey ds ls pk (.idx i), s)]
     | .obj kvs => flatLeaves ds ls (.obj kvs) (joinKey ds ls pk (.idx i))
     | .arr xs => flatLeaves ds ls (.arr xs) (joinKey ds ls pk (.idx i))) ++
    flatLeavesArr ds ls pk (i + 1) rest
end

mutual
/-- The scalar leaves of a JSON value, each paired with the path of object
keys / array indices leading to it, in traversal order.  A bare scalar is a
leaf with the empty path. -/
def leafPathsIn : Json → List (List JKey × Scalar)
  | .prim s => [([], s)]
  | .obj kvs => leafPathsObj kvs
  | .arr xs => leafPathsArr 0 xs

/-- Leaf paths of an object's entries, prefixing each entry's key. -/
def leafPathsObj : List (String × Json) → List (List JKey × Scalar)
  | [] => []
  | (k, v) :: rest =>
    (leafPathsIn v).map (fun p => (JKey.name k :: p.1, p.2)) ++ leafPathsObj rest

/-- Leaf paths of an array's elements, prefixing each element's index. -/
def leafPathsArr : Nat → List Json → List (List JKey × Scalar)
  | _, [] => []
  | i, v :: rest =>
    (leafPathsIn v).map (fun p => (JKey.idx i :: p.1, p.2)) ++ leafPathsArr (i + 1) rest
end

/-- The leaf paths that a top-level `flatten` call (empty parent key) visits:
a bare scalar at the top level is not a leaf (lines 59–60 of
`json_flattener.py` return the empty dict for it). -/
def leafPaths : Json → List (List JKey × Scalar)
  | .prim _ => []
  | .obj kvs => leafPathsObj kvs
  | .arr xs => leafPathsArr 0 xs

/-- The flattened key synthesized for a leaf path, starting from the empty
parent key: the first segment stands alone, each following segment is
prefixed by `list_sep` if it is an array index and by `dict_sep` if it is an
object key. -/
def keyOfPath (ds ls : String) (p : List JKey) : String :=
  p.foldl (joinKey ds ls) ""

/-! ## The CSV-to-JSON converter and the flattener driver

Python exceptions are modelled by their class only; the interpolated
messages play no role in any claim. -/

/-- The Python exception classes occurring in the two tools.  In the spec's
taxonomy (§7): `fileExistsError` is `AlreadyExists`, `fileNotFoundError` is
`NotFound`, the `valueError` raised for a row-less CSV is `EmptyInput`,
`runtimeError` is the generic `ConversionFailed`/`UnexpectedFailure`
wrapper, `permissionError` is `PermissionDenied`, `unicodeDecodeError` /
`unicodeEncodeError` are `InvalidEncoding`, `csvError` is `InvalidFormat`,
`typeError` (from `json.dump`) is `SerializationError`. -/
inductive PyExc where
  | fileExistsError
  | fileNotFoundError
  | valueError
  | typeError
  | permissionError
  | unicodeDecodeError
  | unicodeEncodeError
  | csvError
  | runtimeError
deriving DecidableEq, Repr

/-- Splitting a character list at commas into fields; an empty input is one
empty field. -/
def splitFields : List Char → List String
  | [] => [""]
  | c :: rest =>
    if c = ',' then "" :: splitFields rest
    else
      match splitFields rest with
      | [] => [String.mk [c]]
      | f :: fs => String.mk (c :: f.data) :: fs

/-- Splitting one CSV line at commas (the behaviour of Python's `csv` module
for simple unquoted fields, which is all the claims exercise). -/
def splitComma (s : String) : List String := splitFields s.data

/-- ASCII lower-casing of a string, the behaviour of Python's `str.lower()`
on the ASCII file extensions compared against `".json"` / `".csv"`. -/
def asciiLower (s : String) : String := String.mk (s.data.map Char.toLower)

/-- `list(csv.DictReader(file))` (line 67 of `csv2json.py`) on simple
unquoted input: the first line is the header; every following line becomes
one record mapping each header field, in header order, to the corresponding
cell, every cell kept as a string. -/
def csvParse (lines : List String) : List (List (String × String)) :=
  match lines with
  | [] => []
  | header :: rows => rows.map (fun r => (splitComma header).zip (splitComma r))

/-- The environment of one `Csv2JsonConverter.convert()` call, after the
constructor validations have passed: whether the (resolved) destination file
exists, the `over_write` flag, and the lines of the source file. -/
structure ConvInput where
  destExists : Bool
  over_write : Bool
  srcLines : List String

/-- The body of the `try` block of `convert()` (lines 66–72 of
`csv2json.py`): parse the CSV; if the record list is empty, raise
`ValueError` ("The source file … is empty. Nothing to convert.", line 69);
otherwise the records are serialized and written (modelled as returning the
records that get written). -/
def convertBody (lines : List String) : Except PyExc (List (List (String × String))) :=
  let data := csvParse lines
  if data.isEmpty then .error .valueError
  else .ok data

/-- The `except` chain of `convert()` (lines 74–83 of `csv2json.py`), which
re-raises whatever escapes the `try` body: `PermissionError` stays a
`PermissionError`; `UnicodeDecodeError`, `csv.Error` and `TypeError` are
re-raised as `ValueError`; every other exception — including the
`ValueError` the body itself raises for an empty record list, which matches
none of the earlier clauses — is re-raised as
`RuntimeError("Unexpected error during conversion: …")`. -/
def reclassifyConv : PyExc → PyExc
  | .permissionError => .permissionError
  | .unicodeDecodeError => .valueError
  | .csvError => .valueError
  | .typeError => .valueError
  | _ => .runtimeError

/-- `Csv2JsonConverter.convert()` (lines 58–83 of `csv2json.py`): first the
overwrite gate of lines 59–63 — `FileExistsError` if the destination exists
and `over_write` is false, raised before any read or write — then the `try`
body with its `except` reclassification. -/
def convert (c : ConvInput) : Except PyExc (List (List (String × String))) :=
  if c.destExists && !c.over_write then .error .fileExistsError
  else
    match convertBody c.srcLines with
    | .ok rows => .ok rows
    | .error e => .error (reclassifyConv e)

/-- The environment of one `AppJsonFlattener.main()` call: whether the
source path exists, its extension (`Path.suffix`), whether the derived
output path `flat_<name>` exists, the overwrite flag (`-w`), and the parsed
JSON content of the source file. -/
structure FlatRun where
  sourceExists : Bool
  sourceSuffix : String
  outputExists : Bool
  overwrite : Bool
  data : Json

/-- `AppJsonFlattener.main()` (lines 89–129 of `json_flattener.py`) for an
app constructed with separators `ds`, `ls` (the entry point uses the
defaults `"."` and `"__"`): missing source raises `FileNotFoundError`
(lines 94–97); a non-`.json` extension (case-insensitive, line 99) raises
`ValueError`; an existing output without the overwrite flag raises
`FileExistsError` (lines 107–111); otherwise the file is read, flattened
with empty parent key (line 115) and written (modelled as returning the
flattened dict that gets written; `flatten` itself is pure, so the `except`
arms of lines 118–129 are not reached in this model). -/
def appMain (ds ls : String) (r : FlatRun) : Except PyExc (List (String × Scalar)) :=
  if !r.sourceExists then .error .fileNotFoundError
  else if asciiLower r.sourceSuffix ≠ ".json" then .error .valueError
  else if r.outputExists && !r.overwrite then .error .fileExistsError
  else .ok (flatten ds ls r.data "")

/-! ## Basic lemmas -/

/-- The keys of a modelled dict, in order. -/
def keysOf (d : List (String × Scalar)) : List String := d.map Prod.fst

@[simp]
theorem flatten_prim (ds ls pk : String) (s : Scalar) :
    flatten ds ls (.prim s) pk = [] := rfl

@[simp]
theorem flatten_obj (ds ls pk : String) (kvs : List (String × Json)) :
    flatten ds ls (.obj kvs) pk = flattenObj ds ls pk kvs [] := rfl

@[simp]
theorem flatten_arr (ds ls pk : String) (xs : List Json) :
    flatten ds ls (.arr xs) pk = flattenArr ds ls pk 0 xs [] := rfl

@[simp]
theorem flattenObj_nil (ds ls pk : String) (acc : List (String × Scalar)) :
    flattenObj ds ls pk [] acc = acc := rfl

@[simp]
theorem flattenObj_cons_prim (ds ls pk k : String) (s : Scalar)
    (rest : List (String × Json)) (acc : List (String × Scalar)) :
    flattenObj ds ls pk ((k, .prim s) :: rest) acc
      = flattenObj ds ls pk rest (dictInsert acc (joinKey ds ls pk (.name k)) s) := rfl

@[simp]
theorem flattenObj_cons_obj (ds ls pk k : String) (kvs rest : List (String × Json))
    (acc : List (String × Scalar)) :
    flattenObj ds ls pk ((k, .obj kvs) :: rest) acc
      = flattenObj ds ls pk rest
          (dictUpdate acc (flatten ds ls (.obj kvs) (joinKey ds ls pk (.name k)))) := rfl

@[simp]
theorem flattenObj_cons_arr (ds ls pk k : String) (xs : List Json)
    (rest : List (String × Json)) (acc : List (String × Scalar)) :
    flattenObj ds ls pk ((k, .arr xs) :: rest) acc
      = flattenObj ds ls pk rest
          (dictUpdate acc (flatten ds ls (.arr xs) (joinKey ds ls pk (.name k)))) := rfl

@[simp]
theorem flattenArr_nil (ds ls pk : String) (i : Nat) (acc : List (String × Scalar)) :
    flattenArr ds ls pk i [] acc = acc := rfl

@[simp]
theorem flattenArr_cons_prim (ds ls pk : String) (i : Nat) (s : Scalar)
    (rest : List Json) (acc : List (String × Scalar)) :
    flattenArr ds ls pk i (.prim s :: rest) acc
      = flattenArr ds ls pk (i + 1) rest (dictInsert acc (joinKey ds ls pk (.idx i)) s) := rfl

@[simp]
theorem flattenArr_cons_obj (ds ls pk : String) (i : Nat) (kvs : List (String × Json))
    (rest : List Json) (acc : List (String × Scalar)) :
    flattenArr ds ls pk i (.obj kvs :: rest) acc
      = flattenArr ds ls pk (i + 1) rest
          (dictUpdate acc (flatten ds ls (.obj kvs) (joinKey ds ls pk (.idx i)))) := rfl

@[simp]
theorem flattenArr_cons_arr (ds ls pk : String) (i : Nat) (xs rest : List Json)
    (acc : List (String × Scalar)) :
    flattenArr ds ls pk i (.arr xs :: rest) acc
      = flattenArr ds ls pk (i + 1) rest
          (dictUpdate acc (flatten ds ls (.arr xs) (joinKey ds ls pk (.idx i)))) := rfl

@[simp]
theorem flatLeaves_prim (ds ls pk : String) (s : Scalar) :
    flatLeaves ds ls (.prim s) pk = [] := rfl

@[simp]
theorem flatLeaves_obj (ds ls pk : String) (kvs : List (String × Json)) :
    flatLeaves ds ls (.obj kvs) pk = flatLeavesObj ds ls pk kvs := rfl

@[simp]
theorem flatLeaves_arr (ds ls pk : String) (xs : List Json) :
    flatLeaves ds ls (.arr xs) pk = flatLeavesArr ds ls pk 0 xs := rfl

@[simp]
theorem flatLeavesObj_nil (ds ls pk : String) : flatLeavesObj ds ls pk [] = [] := rfl

@[simp]
theorem flatLeavesObj_cons_prim (ds ls pk k : String) (s : Scalar)
    (rest : List (String × Json)) :
    flatLeavesObj ds ls pk ((k, .prim s) :: rest)
      = (joinKey ds ls pk (.name k), s) :: flatLeavesObj ds ls pk rest := rfl

@[simp]
theorem flatLeavesObj_cons_obj (ds ls pk k : String) (kvs rest : List (String × Json)) :
    flatLeavesObj ds ls pk ((k, .obj kvs) :: rest)
      = flatLeaves ds ls (.obj kvs) (joinKey ds ls pk (.name k)) ++
          flatLeavesObj ds ls pk rest := rfl

@[simp]
theorem flatLeavesObj_cons_arr (ds ls pk k : String) (xs : List Json)
    (rest : List (String × Json)) :
    flatLeavesObj ds ls pk ((k, .arr xs) :: rest)
      = flatLeaves ds ls (.arr xs) (joinKey ds ls pk (.name k)) ++
          flatLeavesObj ds ls pk rest := rfl

@[simp]
theorem flatLeavesArr_nil (ds ls pk : String) (i : Nat) : flatLeavesArr ds ls pk i [] = [] := rfl

@[simp]
theorem flatLeavesArr_cons_prim (ds ls pk : String) (i : Nat) (s : Scalar) (rest : List Json) :
    flatLeavesArr ds ls pk i (.prim s :: rest)
      = (joinKey ds ls pk (.idx i), s) :: flatLeavesArr ds ls pk (i + 1) rest := rfl

@[simp]
theorem flatLeavesArr_cons_obj (ds ls pk : String) (i : Nat) (kvs : List (String × Json))
    (rest : List Json) :
    flatLeavesArr ds ls pk i (.obj kvs :: rest)
      = flatLeaves ds ls (.obj kvs) (joinKey ds ls pk (.idx i)) ++
          flatLeavesArr ds ls pk (i + 1) rest := rfl

@[simp]
theorem flatLeavesArr_cons_arr (ds ls pk : String) (i : Nat) (xs rest : List Json) :
    flatLeavesArr ds ls pk i (.arr xs :: rest)
      = flatLeaves ds ls (.arr xs) (joinKey ds ls pk (.idx i)) ++
          flatLeavesArr ds ls pk (i + 1) rest := rfl

@[simp]
theorem leafPaths_prim (s : Scalar) : leafPaths (.prim s) = [] := rfl

@[simp]
theorem leafPaths_obj (kvs : List (String × Json)) :
    leafPaths (.obj kvs) = leafPathsObj kvs := rfl

@[simp]
theorem leafPaths_arr (xs : List Json) : leafPaths (.arr xs) = leafPathsArr 0 xs := rfl

@[simp]
theorem leafPathsObj_nil : leafPathsObj [] = [] := rfl

@[simp]
theorem leafPathsObj_cons (k : String) (v : Json) (rest : List (String × Json)) :
    leafPathsObj ((k, v) :: rest)
      = (leafPathsIn v).map (fun p => (JKey.name k :: p.1, p.2)) ++ leafPathsObj rest := rfl

@[simp]
theorem leafPathsArr_nil (i : Nat) : leafPathsArr i [] = [] := rfl

@[simp]
theorem leafPathsArr_cons (i : Nat) (v : Json) (rest : List Json) :
    leafPathsArr i (v :: rest)
      = (leafPathsIn v).map (fun p => (JKey.idx i :: p.1, p.2)) ++ leafPathsArr (i + 1) rest := rfl

/-- A structural induction principle for `Json` giving the inductive
hypothesis at every member of an object or array. -/
def Json.memInduction (P : Json → Prop)
    (hprim : ∀ s, P (Json.prim s))
    (hobj : ∀ kvs, (∀ kv ∈ kvs, P kv.2) → P (Json.obj kvs))
    (harr : ∀ xs, (∀ x ∈ xs, P x) → P (Json.arr xs)) :
    ∀ j, P j
  | .prim s => hprim s
  | .obj kvs => hobj kvs (fun kv hkv =>
      have : sizeOf kv.2 < 1 + sizeOf kvs := by
        have h1 : sizeOf kv < sizeOf kvs := List.sizeOf_lt_of_mem hkv
        have h2 : sizeOf kv.2 < sizeOf kv := by
          obtain ⟨a, b⟩ := kv
          simp
        omega
      Json.memInduction P hprim hobj harr kv.2)
  | .arr xs => harr xs (fun x hx =>
      have : sizeOf x < 1 + sizeOf xs := by
        have h1 : sizeOf x < sizeOf xs := List.sizeOf_lt_of_mem hx
        omega
      Json.memInduction P hprim hobj harr x)
termination_by j => sizeOf j

/-! ## Dict lemmas -/

theorem keysOf_dictInsert (d : List (String × Scalar)) (k : String) (v : Scalar) :
    keysOf (dictInsert d k v)
      = if k ∈ keysOf d then keysOf d else keysOf d ++ [k] := by
  unfold dictInsert keysOf
  by_cases h : k ∈ d.map Prod.fst
  · obtain ⟨p, hp, hpk⟩ := List.mem_map.mp h
    have hany : d.any (fun p => p.1 == k) = true :=
      List.any_eq_true.mpr ⟨p, hp, by simp [hpk]⟩
    simp only [hany, if_true, h, List.map_map]
    apply List.map_congr_left
    intro q _
    by_cases hq : q.1 = k
    · simp [hq]
    · simp [hq]
  · have hany : d.any (fun p => p.1 == k) = false := by
      rw [List.any_eq_false]
      intro p hp
      simp only [beq_iff_eq]
      intro hpk
      exact h (List.mem_map.mpr ⟨p, hp, hpk⟩)
    simp [hany, h]

theorem mem_keysOf_dictInsert_self (d : List (String × Scalar)) (k : String) (v : Scalar) :
    k ∈ keysOf (dictInsert d k v) := by
  rw [keysOf_dictInsert]
  by_cases h : k ∈ keysOf d <;> simp [h]

theorem keysOf_dictInsert_mono (d : List (String × Scalar)) (k k' : String) (v : Scalar)
    (h : k' ∈ keysOf d) : k' ∈ keysOf (dictInsert d k v) := by
  rw [keysOf_dictInsert]
  by_cases hk : k ∈ keysOf d <;> simp [hk, h]

theorem mem_dictInsert (d : List (String × Scalar)) (k : String) (v : Scalar)
    (e : String × Scalar) (h : e ∈ dictInsert d k v) : e ∈ d ∨ e = (k, v) := by
  unfold dictInsert at h
  by_cases hany : d.any (fun p => p.1 == k) = true
  · rw [if_pos hany] at h
    obtain ⟨p, hp, hpe⟩ := List.mem_map.mp h
    by_cases hpk : p.1 = k
    · right
      rw [if_pos (by simp [hpk])] at hpe
      exact hpe.symm
    · left
      rw [if_neg (by simp [hpk])] at hpe
      rwa [← hpe]
  · rw [if_neg hany] at h
    rcases List.mem_append.mp h with h' | h'
    · exact Or.inl h'
    · right
      simpa using h'

theorem length_dictInsert_le (d : List (String × Scalar)) (k : String) (v : Scalar) :
    (dictInsert d k v).length ≤ d.length + 1 := by
  unfold dictInsert
  by_cases hany : d.any (fun p => p.1 == k) = true <;> simp [hany]

theorem nodup_keysOf_dictInsert (d : List (String × Scalar)) (k : String) (v : Scalar)
    (h : (keysOf d).Nodup) : (keysOf (dictInsert d k v)).Nodup := by
  rw [keysOf_dictInsert]
  by_cases hk : k ∈ keysOf d
  · simpa [hk]
  · simp only [hk, if_false]
    rw [List.nodup_append]
    exact ⟨h, List.nodup_singleton k, by simpa using hk⟩

theorem dictInsert_of_not_mem (d : List (String × Scalar)) (k : String) (v : Scalar)
    (h : k ∉ keysOf d) : dictInsert d k v = d ++ [(k, v)] := by
  unfold dictInsert
  have hany : d.any (fun p => p.1 == k) = false := by
    rw [List.any_eq_false]
    intro p hp
    simp only [beq_iff_eq]
    intro hpk
    exact h (List.mem_map.mpr ⟨p, hp, hpk⟩)
  simp [hany]

theorem keysOf_dictUpdate_left (d e : List (String × Scalar)) (k : String)
    (h : k ∈ keysOf d) : k ∈ keysOf (dictUpdate d e) := by
  induction e generalizing d with
  | nil => exact h
  | cons p rest ih =>
    exact ih (dictInsert d p.1 p.2) (keysOf_dictInsert_mono d p.1 k p.2 h)

theorem keysOf_dictUpdate_right (d e : List (String × Scalar)) (k : String)
    (h : k ∈ keysOf e) : k ∈ keysOf (dictUpdate d e) := by
  induction e generalizing d with
  | nil => simp [keysOf] at h
  | cons p rest ih =>
    rcases List.mem_cons.mp h with h' | h'
    · subst h'
      exact keysOf_dictUpdate_left (dictInsert d p.1 p.2) rest p.1
        (mem_keysOf_dictInsert_self d p.1 p.2)
    · exact ih (dictInsert d p.1 p.2) h'

theorem mem_dictUpdate (d e : List (String × Scalar)) (x : String × Scalar)
    (h : x ∈ dictUpdate d e) : x ∈ d ∨ x ∈ e := by
  induction e generalizing d with
  | nil => exact Or.inl h
  | cons p rest ih =>
    rcases ih (dictInsert d p.1 p.2) h with h' | h'
    · rcases mem_dictInsert d p.1 p.2 x h' with h'' | h''
      · exact Or.inl h''
      · exact Or.inr (by simp [h''])
    · exact Or.inr (List.mem_cons_of_mem p h')

theorem length_dictUpdate_le (d e : List (String × Scalar)) :
    (dictUpdate d e).length ≤ d.length + e.length := by
  induction e generalizing d with
  | nil => simp [dictUpdate]
  | cons p rest ih =>
    calc (dictUpdate d (p :: rest)).length
        = (dictUpdate (dictInsert d p.1 p.2) rest).length := rfl
      _ ≤ (dictInsert d p.1 p.2).length + rest.length := ih (dictInsert d p.1 p.2)
      _ ≤ d.length + 1 + rest.length := by
          have := length_dictInsert_le d p.1 p.2
          omega
      _ = d.length + (p :: rest).length := by simp; omega

theorem nodup_keysOf_dictUpdate (d e : List (String × Scalar))
    (h : (keysOf d).Nodup) : (keysOf (dictUpdate d e)).Nodup := by
  induction e generalizing d with
  | nil => exact h
  | cons p rest ih =>
    exact ih (dictInsert d p.1 p.2) (nodup_keysOf_dictInsert d p.1 p.2 h)

@[simp]
theorem dictUpdate_nil (d : List (String × Scalar)) : dictUpdate d [] = d := rfl

@[simp]
theorem keysOf_nil : keysOf [] = [] := rfl

@[simp]
theorem keysOf_cons (p : String × Scalar) (l : List (String × Scalar)) :
    keysOf (p :: l) = p.1 :: keysOf l := rfl

@[simp]
theorem keysOf_append (a b : List (String × Scalar)) :
    keysOf (a ++ b) = keysOf a ++ keysOf b := by simp [keysOf]

@[simp]
theorem leafPathsIn_prim (s : Scalar) : leafPathsIn (.prim s) = [([], s)] := rfl

@[simp]
theorem leafPathsIn_obj (kvs : List (String × Json)) :
    leafPathsIn (.obj kvs) = leafPathsObj kvs := rfl

@[simp]
theorem leafPathsIn_arr (xs : List Json) : leafPathsIn (.arr xs) = leafPathsArr 0 xs := rfl

/-! ## Structure lemmas about the flattening loop -/

theorem flattenObj_append (ds ls pk : String) (a b : List (String × Json))
    (acc : List (String × Scalar)) :
    flattenObj ds ls pk (a ++ b) acc = flattenObj ds ls pk b (flattenObj ds ls pk a acc) := by
  induction a generalizing acc with
  | nil => rfl
  | cons hd tl ih =>
    obtain ⟨k, v⟩ := hd
    cases v <;> simp [ih]

theorem keysOf_flattenObj_mono (ds ls pk : String) (kvs : List (String × Json)) :
    ∀ (acc : List (String × Scalar)) (k : String), k ∈ keysOf acc →
      k ∈ keysOf (flattenObj ds ls pk kvs acc) := by
  induction kvs with
  | nil => intro acc k h; simpa using h
  | cons hd tl ih =>
    intro acc k h
    obtain ⟨k', v⟩ := hd
    cases v with
    | prim s =>
      rw [flattenObj_cons_prim]
      exact ih _ k (keysOf_dictInsert_mono acc _ k s h)
    | obj kvs' =>
      rw [flattenObj_cons_obj]
      exact ih _ k (keysOf_dictUpdate_left acc _ k h)
    | arr xs =>
      rw [flattenObj_cons_arr]
      exact ih _ k (keysOf_dictUpdate_left acc _ k h)

theorem keysOf_flattenArr_mono (ds ls pk : String) (xs : List Json) :
    ∀ (i : Nat) (acc : List (String × Scalar)) (k : String), k ∈ keysOf acc →
      k ∈ keysOf (flattenArr ds ls pk i xs acc) := by
  induction xs with
  | nil => intro i acc k h; simpa using h
  | cons hd tl ih =>
    intro i acc k h
    cases hd with
    | prim s =>
      rw [flattenArr_cons_prim]
      exact ih _ _ k (keysOf_dictInsert_mono acc _ k s h)
    | obj kvs' =>
      rw [flattenArr_cons_obj]
      exact ih _ _ k (keysOf_dictUpdate_left acc _ k h)
    | arr xs' =>
      rw [flattenArr_cons_arr]
      exact ih _ _ k (keysOf_dictUpdate_left acc _ k h)

theorem flattenObj_mem_sub (ds ls pk : String) :
    ∀ (kvs : List (String × Json)),
      (∀ kv ∈ kvs, ∀ pk' e, e ∈ flatten ds ls kv.2 pk' → e ∈ flatLeaves ds ls kv.2 pk') →
      ∀ (acc : List (String × Scalar)) (e : String × Scalar),
        e ∈ flattenObj ds ls pk kvs acc → e ∈ acc ∨ e ∈ flatLeavesObj ds ls pk kvs := by
  intro kvs
  induction kvs with
  | nil => intro _ acc e h; exact Or.inl (by simpa using h)
  | cons hd tl ih =>
    intro hIH acc e h
    obtain ⟨k, v⟩ := hd
    have hhd := hIH (k, v) (List.mem_cons_self _ _)
    have htl := fun kv hkv => hIH kv (List.mem_cons_of_mem _ hkv)
    cases v with
    | prim s =>
      rw [flattenObj_cons_prim] at h
      rcases ih htl _ e h with h' | h'
      · rcases mem_dictInsert _ _ _ _ h' with h'' | h''
        · exact Or.inl h''
        · exact Or.inr (by simp [h''])
      · exact Or.inr (by simp [h'])
    | obj kvs' =>
      rw [flattenObj_cons_obj] at h
      rcases ih htl _ e h with h' | h'
      · rcases mem_dictUpdate _ _ _ h' with h'' | h''
        · exact Or.inl h''
        · refine Or.inr ?_
          rw [flatLeavesObj_cons_obj]
          exact List.mem_append_left _ (hhd _ e h'')
      · refine Or.inr ?_
        rw [flatLeavesObj_cons_obj]
        exact List.mem_append_right _ h'
    | arr xs =>
      rw [flattenObj_cons_arr] at h
      rcases ih htl _ e h with h' | h'
      · rcases mem_dictUpdate _ _ _ h' with h'' | h''
        · exact Or.inl h''
        · refine Or.inr ?_
          rw [flatLeavesObj_cons_arr]
          exact List.mem_append_left _ (hhd _ e h'')
      · refine Or.inr ?_
        rw [flatLeavesObj_cons_arr]
        exact List.mem_append_right _ h'

theorem flattenArr_mem_sub (ds ls pk : String) :
    ∀ (xs : List Json),
      (∀ x ∈ xs, ∀ pk' e, e ∈ flatten ds ls x pk' → e ∈ flatLeaves ds ls x pk') →
      ∀ (i : Nat) (acc : List (String × Scalar)) (e : String × Scalar),
        e ∈ flattenArr ds ls pk i xs acc → e ∈ acc ∨ e ∈ flatLeavesArr ds ls pk i xs := by
  intro xs
  induction xs with
  | nil => intro _ i acc e h; exact Or.inl (by simpa using h)
  | cons hd tl ih =>
    intro hIH i acc e h
    have hhd := hIH hd (List.mem_cons_self _ _)
    have htl := fun x hx => hIH x (List.mem_cons_of_mem _ hx)
    cases hd with
    | prim s =>
      rw [flattenArr_cons_prim] at h
      rcases ih htl _ _ e h with h' | h'
      · rcases mem_dictInsert _ _ _ _ h' with h'' | h''
        · exact Or.inl h''
        · exact Or.inr (by simp [h''])
      · exact Or.inr (by simp [h'])
    | obj kvs' =>
      rw [flattenArr_cons_obj] at h
      rcases ih htl _ _ e h with h' | h'
      · rcases mem_dictUpdate _ _ _ h' with h'' | h''
        · exact Or.inl h''
        · refine Or.inr ?_
          rw [flatLeavesArr_cons_obj]
          exact List.mem_append_left _ (hhd _ e h'')
      · refine Or.inr ?_
        rw [flatLeavesArr_cons_obj]
        exact List.mem_append_right _ h'
    | arr xs' =>
      rw [flattenArr_cons_arr] at h
      rcases ih htl _ _ e h with h' | h'
      · rcases mem_dictUpdate _ _ _ h' with h'' | h''
        · exact Or.inl h''
        · refine Or.inr ?_
          rw [flatLeavesArr_cons_arr]
          exact List.mem_append_left _ (hhd _ e h'')
      · refine Or.inr ?_
        rw [flatLeavesArr_cons_arr]
        exact List.mem_append_right _ h'

/-- Every entry of the dict computed by `flatten` is one of the (key, value)
assignments the traversal performs. -/
theorem flatten_mem_sub (ds ls : String) (j : Json) :
    ∀ pk e, e ∈ flatten ds ls j pk → e ∈ flatLeaves ds ls j pk := by
  induction j using Json.memInduction with
  | hprim s => intro pk e h; simp at h
  | hobj kvs hIH =>
    intro pk e h
    rw [flatten_obj] at h
    rcases flattenObj_mem_sub ds ls pk kvs hIH [] e h with h' | h'
    · simp at h'
    · simpa using h'
  | harr xs hIH =>
    intro pk e h
    rw [flatten_arr] at h
    rcases flattenArr_mem_sub ds ls pk xs hIH 0 [] e h with h' | h'
    · simp at h'
    · simpa using h'

theorem flattenObj_leaf_keys (ds ls pk : String) :
    ∀ (kvs : List (String × Json)),
      (∀ kv ∈ kvs, ∀ pk' k, k ∈ keysOf (flatLeaves ds ls kv.2 pk') →
        k ∈ keysOf (flatten ds ls kv.2 pk')) →
      ∀ (acc : List (String × Scalar)) (k : String),
        k ∈ keysOf (flatLeavesObj ds ls pk kvs) → k ∈ keysOf (flattenObj ds ls pk kvs acc) := by
  intro kvs
  induction kvs with
  | nil => intro _ acc k h; simp at h
  | cons hd tl ih =>
    intro hIH acc k h
    obtain ⟨k', v⟩ := hd
    have hhd := hIH (k', v) (List.mem_cons_self _ _)
    have htl := fun kv hkv => hIH kv (List.mem_cons_of_mem _ hkv)
    cases v with
    | prim s =>
      rw [flatLeavesObj_cons_prim] at h
      rw [flattenObj_cons_prim]
      rcases List.mem_cons.mp h with h' | h'
      · subst h'
        exact keysOf_flattenObj_mono ds ls pk tl _ _
          (mem_keysOf_dictInsert_self acc _ s)
      · exact ih htl _ k h'
    | obj kvs' =>
      rw [flatLeavesObj_cons_obj] at h
      rw [flattenObj_cons_obj]
      rw [keysOf_append] at h
      rcases List.mem_append.mp h with h' | h'
      · exact keysOf_flattenObj_mono ds ls pk tl _ _
          (keysOf_dictUpdate_right acc _ k (hhd _ k h'))
      · exact ih htl _ k h'
    | arr xs =>
      rw [flatLeavesObj_cons_arr] at h
      rw [flattenObj_cons_arr]
      rw [keysOf_append] at h
      rcases List.mem_append.mp h with h' | h'
      · exact keysOf_flattenObj_mono ds ls pk tl _ _
          (keysOf_dictUpdate_right acc _ k (hhd _ k h'))
      · exact ih htl _ k h'

theorem flattenArr_leaf_keys (ds ls pk : String) :
    ∀ (xs : List Json),
      (∀ x ∈ xs, ∀ pk' k, k ∈ keysOf (flatLeaves ds ls x pk') →
        k ∈ keysOf (flatten ds ls x pk')) →
      ∀ (i : Nat) (acc : List (String × Scalar)) (k : String),
        k ∈ keysOf (flatLeavesArr ds ls pk i xs) → k ∈ keysOf (flattenArr ds ls pk i xs acc) := by
  intro xs
  induction xs with
  | nil => intro _ i acc k h; simp at h
  | cons hd tl ih =>
    intro hIH i acc k h
    have hhd := hIH hd (List.mem_cons_self _ _)
    have htl := fun x hx => hIH x (List.mem_cons_of_mem _ hx)
    cases hd with
    | prim s =>
      rw [flatLeavesArr_cons_prim] at h
      rw [flattenArr_cons_prim]
      rcases List.mem_cons.mp h with h' | h'
      · subst h'
        exact keysOf_flattenArr_mono ds ls pk tl _ _ _
          (mem_keysOf_dictInsert_self acc _ s)
      · exact ih htl _ _ k h'
    | obj kvs' =>
      rw [flatLeavesArr_cons_obj] at h
      rw [flattenArr_cons_obj]
      rw [keysOf_append] at h
      rcases List.mem_append.mp h with h' | h'
      · exact keysOf_flattenArr_mono ds ls pk tl _ _ _
          (keysOf_dictUpdate_right acc _ k (hhd _ k h'))
      · exact ih htl _ _ k h'
    | arr xs' =>
      rw [flatLeavesArr_cons_arr] at h
      rw [flattenArr_cons_arr]
      rw [keysOf_append] at h
      rcases List.mem_append.mp h with h' | h'
      · exact keysOf_flattenArr_mono ds ls pk tl _ _ _
          (keysOf_dictUpdate_right acc _ k (hhd _ k h'))
      · exact ih htl _ _ k h'

/-- Conversely, the key of every assignment the traversal performs is
present in the dict computed by `flatten` (values can be overwritten by a
later colliding assignment, keys cannot disappear). -/
theorem flatten_leaf_keys (ds ls : String) (j : Json) :
    ∀ pk k, k ∈ keysOf (flatLeaves ds ls j pk) → k ∈ keysOf (flatten ds ls j pk) := by
  induction j using Json.memInduction with
  | hprim s => intro pk k h; simp at h
  | hobj kvs hIH =>
    intro pk k h
    rw [flatten_obj]
    exact flattenObj_leaf_keys ds ls pk kvs hIH [] k (by simpa using h)
  | harr xs hIH =>
    intro pk k h
    rw [flatten_arr]
    exact flattenArr_leaf_keys ds ls pk xs hIH 0 [] k (by simpa using h)

theorem flattenObj_length_le (ds ls pk : String) :
    ∀ (kvs : List (String × Json)),
      (∀ kv ∈ kvs, ∀ pk', (flatten ds ls kv.2 pk').length ≤ (flatLeaves ds ls kv.2 pk').length) →
      ∀ (acc : List (String × Scalar)),
        (flattenObj ds ls pk kvs acc).length ≤ acc.length + (flatLeavesObj ds ls pk kvs).length := by
  intro kvs
  induction kvs with
  | nil => intro _ acc; simp
  | cons hd tl ih =>
    intro hIH acc
    obtain ⟨k, v⟩ := hd
    have hhd := hIH (k, v) (List.mem_cons_self _ _)
    have htl := fun kv hkv => hIH kv (List.mem_cons_of_mem _ hkv)
    cases v with
    | prim s =>
      have h1 := ih htl (dictInsert acc (joinKey ds ls pk (.name k)) s)
      have h2 := length_dictInsert_le acc (joinKey ds ls pk (.name k)) s
      rw [flattenObj_cons_prim, flatLeavesObj_cons_prim]
      simp only [List.length_cons]
      omega
    | obj kvs' =>
      have h1 := ih htl (dictUpdate acc (flatten ds ls (.obj kvs') (joinKey ds ls pk (.name k))))
      have h2 := length_dictUpdate_le acc (flatten ds ls (.obj kvs') (joinKey ds ls pk (.name k)))
      have h3 := hhd (joinKey ds ls pk (.name k))
      dsimp only at h3
      rw [flattenObj_cons_obj, flatLeavesObj_cons_obj]
      simp only [List.length_append]
      omega
    | arr xs =>
      have h1 := ih htl (dictUpdate acc (flatten ds ls (.arr xs) (joinKey ds ls pk (.name k))))
      have h2 := length_dictUpdate_le acc (flatten ds ls (.arr xs) (joinKey ds ls pk (.name k)))
      have h3 := hhd (joinKey ds ls pk (.name k))
      dsimp only at h3
      rw [flattenObj_cons_arr, flatLeavesObj_cons_arr]
      simp only [List.length_append]
      omega

theorem flattenArr_length_le (ds ls pk : String) :
    ∀ (xs : List Json),
      (∀ x ∈ xs, ∀ pk', (flatten ds ls x pk').length ≤ (flatLeaves ds ls x pk').length) →
      ∀ (i : Nat) (acc : List (String × Scalar)),
        (flattenArr ds ls pk i xs acc).length ≤ acc.length + (flatLeavesArr ds ls pk i xs).length := by
  intro xs
  induction xs with
  | nil => intro _ i acc; simp
  | cons hd tl ih =>
    intro hIH i acc
    have hhd := hIH hd (List.mem_cons_self _ _)
    have htl := fun x hx => hIH x (List.mem_cons_of_mem _ hx)
    cases hd with
    | prim s =>
      have h1 := ih htl (i + 1) (dictInsert acc (joinKey ds ls pk (.idx i)) s)
      have h2 := length_dictInsert_le acc (joinKey ds ls pk (.idx i)) s
      rw [flattenArr_cons_prim, flatLeavesArr_cons_prim]
      simp only [List.length_cons]
      omega
    | obj kvs' =>
      have h1 := ih htl (i + 1)
        (dictUpdate acc (flatten ds ls (.obj kvs') (joinKey ds ls pk (.idx i))))
      have h2 := length_dictUpdate_le acc (flatten ds ls (.obj kvs') (joinKey ds ls pk (.idx i)))
      have h3 := hhd (joinKey ds ls pk (.idx i))
      rw [flattenArr_cons_obj, flatLeavesArr_cons_obj]
      simp only [List.length_append]
      omega
    | arr xs' =>
      have h1 := ih htl (i + 1)
        (dictUpdate acc (flatten ds ls (.arr xs') (joinKey ds ls pk (.idx i))))
      have h2 := length_dictUpdate_le acc (flatten ds ls (.arr xs') (joinKey ds ls pk (.idx i)))
      have h3 := hhd (joinKey ds ls pk (.idx i))
      rw [flattenArr_cons_arr, flatLeavesArr_cons_arr]
      simp only [List.length_append]
      omega

/-- The dict computed by `flatten` has at most one entry per assignment the
traversal performs. -/
theorem flatten_length_le (ds ls : String) (j : Json) :
    ∀ pk, (flatten ds ls j pk).length ≤ (flatLeaves ds ls j pk).length := by
  induction j using Json.memInduction with
  | hprim s => intro pk; simp
  | hobj kvs hIH =>
    intro pk
    have := flattenObj_length_le ds ls pk kvs hIH []
    simpa using this
  | harr xs hIH =>
    intro pk
    have := flattenArr_length_le ds ls pk xs hIH 0 []
    simpa using this

theorem nodup_keysOf_flattenObj (ds ls pk : String) (kvs : List (String × Json)) :
    ∀ (acc : List (String × Scalar)), (keysOf acc).Nodup →
      (keysOf (flattenObj ds ls pk kvs acc)).Nodup := by
  induction kvs with
  | nil => intro acc h; simpa using h
  | cons hd tl ih =>
    intro acc h
    obtain ⟨k, v⟩ := hd
    cases v with
    | prim s =>
      rw [flattenObj_cons_prim]
      exact ih _ (nodup_keysOf_dictInsert _ _ _ h)
    | obj kvs' =>
      rw [flattenObj_cons_obj]
      exact ih _ (nodup_keysOf_dictUpdate _ _ h)
    | arr xs =>
      rw [flattenObj_cons_arr]
      exact ih _ (nodup_keysOf_dictUpdate _ _ h)

theorem nodup_keysOf_flattenArr (ds ls pk : String) (xs : List Json) :
    ∀ (i : Nat) (acc : List (String × Scalar)), (keysOf acc).Nodup →
      (keysOf (flattenArr ds ls pk i xs acc)).Nodup := by
  induction xs with
  | nil => intro i acc h; simpa using h
  | cons hd tl ih =>
    intro i acc h
    cases hd with
    | prim s =>
      rw [flattenArr_cons_prim]
      exact ih _ _ (nodup_keysOf_dictInsert _ _ _ h)
    | obj kvs' =>
      rw [flattenArr_cons_obj]
      exact ih _ _ (nodup_keysOf_dictUpdate _ _ h)
    | arr xs' =>
      rw [flattenArr_cons_arr]
      exact ih _ _ (nodup_keysOf_dictUpdate _ _ h)

/-- The result of `flatten` is a genuine mapping: its keys are pairwise
distinct. -/
theorem nodup_keysOf_flatten (ds ls pk : String) (j : Json) :
    (keysOf (flatten ds ls j pk)).Nodup := by
  cases j with
  | prim s => simp [keysOf]
  | obj kvs =>
    rw [flatten_obj]
    exact nodup_keysOf_flattenObj ds ls pk kvs [] (by simp)
  | arr xs =>
    rw [flatten_arr]
    exact nodup_keysOf_flattenArr ds ls pk xs 0 [] (by simp)

/-! ## The assignment sequence in terms of leaf paths -/

theorem flatLeavesObj_eq_leafPaths (ds ls : String) :
    ∀ (kvs : List (String × Json)),
      (∀ kv ∈ kvs, ∀ pk', flatLeaves ds ls kv.2 pk'
        = (leafPaths kv.2).map (fun p => (p.1.foldl (joinKey ds ls) pk', p.2))) →
      ∀ pk, flatLeavesObj ds ls pk kvs
        = (leafPathsObj kvs).map (fun p => (p.1.foldl (joinKey ds ls) pk, p.2)) := by
  intro kvs
  induction kvs with
  | nil => intro _ pk; rfl
  | cons hd tl ih =>
    intro hIH pk
    obtain ⟨k, v⟩ := hd
    have htl := fun kv hkv => hIH kv (List.mem_cons_of_mem _ hkv)
    cases v with
    | prim s =>
      rw [flatLeavesObj_cons_prim, leafPathsObj_cons, List.map_append, ← ih htl pk]
      simp
    | obj kvs' =>
      have hhd := hIH (k, .obj kvs') (List.mem_cons_self _ _)
      dsimp only at hhd
      rw [flatLeavesObj_cons_obj, leafPathsObj_cons, List.map_append, ← ih htl pk,
        hhd (joinKey ds ls pk (.name k))]
      simp [List.map_map, Function.comp_def]
    | arr xs =>
      have hhd := hIH (k, .arr xs) (List.mem_cons_self _ _)
      dsimp only at hhd
      rw [flatLeavesObj_cons_arr, leafPathsObj_cons, List.map_append, ← ih htl pk,
        hhd (joinKey ds ls pk (.name k))]
      simp [List.map_map, Function.comp_def]

theorem flatLeavesArr_eq_leafPaths (ds ls : String) :
    ∀ (xs : List Json),
      (∀ x ∈ xs, ∀ pk', flatLeaves ds ls x pk'
        = (leafPaths x).map (fun p => (p.1.foldl (joinKey ds ls) pk', p.2))) →
      ∀ (pk : String) (i : Nat), flatLeavesArr ds ls pk i xs
        = (leafPathsArr i xs).map (fun p => (p.1.foldl (joinKey ds ls) pk, p.2)) := by
  intro xs
  induction xs with
  | nil => intro _ pk i; rfl
  | cons hd tl ih =>
    intro hIH pk i
    have htl := fun x hx => hIH x (List.mem_cons_of_mem _ hx)
    cases hd with
    | prim s =>
      rw [flatLeavesArr_cons_prim, leafPathsArr_cons, List.map_append, ← ih htl pk]
      simp
    | obj kvs' =>
      have hhd := hIH (.obj kvs') (List.mem_cons_self _ _)
      rw [flatLeavesArr_cons_obj, leafPathsArr_cons, List.map_append, ← ih htl pk,
        hhd (joinKey ds ls pk (.idx i))]
      simp [List.map_map, Function.comp_def]
    | arr xs' =>
      have hhd := hIH (.arr xs') (List.mem_cons_self _ _)
      rw [flatLeavesArr_cons_arr, leafPathsArr_cons, List.map_append, ← ih htl pk,
        hhd (joinKey ds ls pk (.idx i))]
      simp [List.map_map, Function.comp_def]

/-- The assignment sequence of the traversal is exactly the leaf paths of
the source tree, each path rendered into its synthesized key by folding
`joinKey` from the parent key. -/
theorem flatLeaves_eq_leafPaths (ds ls : String) (j : Json) :
    ∀ pk, flatLeaves ds ls j pk
      = (leafPaths j).map (fun p => (p.1.foldl (joinKey ds ls) pk, p.2)) := by
  induction j using Json.memInduction with
  | hprim s => intro pk; simp
  | hobj kvs hIH =>
    intro pk
    rw [flatLeaves_obj, leafPaths_obj]
    exact flatLeavesObj_eq_leafPaths ds ls kvs hIH pk
  | harr xs hIH =>
    intro pk
    rw [flatLeaves_arr, leafPaths_arr]
    exact flatLeavesArr_eq_leafPaths ds ls xs hIH pk 0

/-! ## Helpers for flat maps and depth-1 leaves -/

theorem joinKey_empty (ds ls : String) (k : JKey) :
    joinKey ds ls "" k = keyStr k := by simp [joinKey]

theorem flattenObj_flat (ds ls : String) :
    ∀ (m : List (String × Scalar)) (acc : List (String × Scalar)),
      (∀ k ∈ m.map Prod.fst, k ∉ keysOf acc) → (m.map Prod.fst).Nodup →
      flattenObj ds ls "" (m.map (fun p => (p.1, Json.prim p.2))) acc = acc ++ m := by
  intro m
  induction m with
  | nil => intro acc _ _; simp
  | cons hd tl ih =>
    intro acc hdisj hnodup
    obtain ⟨k, s⟩ := hd
    rw [List.map_cons]
    dsimp only
    rw [flattenObj_cons_prim, joinKey_empty]
    dsimp only [keyStr]
    rw [dictInsert_of_not_mem]
    · rw [ih (acc ++ [(k, s)]) ?_ ?_]
      · simp
      · intro k' hk'
        rw [keysOf_append]
        rw [List.map_cons] at hnodup
        rcases List.nodup_cons.mp hnodup with ⟨hknotin, _⟩
        have h1 : k' ∉ keysOf acc := hdisj k' (List.mem_cons_of_mem _ hk')
        have h2 : k' ≠ k := by
          intro hkk
          exact hknotin (hkk ▸ hk')
        intro hmem
        rcases List.mem_append.mp hmem with hm | hm
        · exact h1 hm
        · have hkk : k' = k := by simpa [keysOf] using hm
          exact h2 hkk
      · rw [List.map_cons] at hnodup
        exact (List.nodup_cons.mp hnodup).2
    · exact hdisj k (by simp)

theorem mem_flatLeavesObj_of_entry (ds ls pk : String) (k : String) (s : Scalar) :
    ∀ (kvs : List (String × Json)), (k, Json.prim s) ∈ kvs →
      (joinKey ds ls pk (.name k), s) ∈ flatLeavesObj ds ls pk kvs := by
  intro kvs
  induction kvs with
  | nil => intro h; cases h
  | cons hd tl ih =>
    intro h
    rcases List.mem_cons.mp h with h' | h'
    · rw [← h', flatLeavesObj_cons_prim]
      exact List.mem_cons_self _ _
    · have htl := ih h'
      obtain ⟨k', v⟩ := hd
      cases v with
      | prim s' =>
        rw [flatLeavesObj_cons_prim]
        exact List.mem_cons_of_mem _ htl
      | obj kvs' =>
        rw [flatLeavesObj_cons_obj]
        exact List.mem_append_right _ htl
      | arr xs =>
        rw [flatLeavesObj_cons_arr]
        exact List.mem_append_right _ htl

theorem mem_flatLeavesArr_of_get (ds ls pk : String) (s : Scalar) :
    ∀ (xs : List Json) (i i0 : Nat), xs[i]? = some (Json.prim s) →
      (joinKey ds ls pk (.idx (i0 + i)), s) ∈ flatLeavesArr ds ls pk i0 xs := by
  intro xs
  induction xs with
  | nil => intro i i0 h; simp at h
  | cons hd tl ih =>
    intro i i0 h
    cases i with
    | zero =>
      rw [List.getElem?_cons_zero] at h
      have hhd : hd = Json.prim s := by
        injection h
      subst hhd
      rw [flatLeavesArr_cons_prim]
      simp
    | succ n =>
      rw [List.getElem?_cons_succ] at h
      have htl := ih n (i0 + 1) h
      have harith : i0 + 1 + n = i0 + (n + 1) := by omega
      rw [harith] at htl
      cases hd with
      | prim s' =>
        rw [flatLeavesArr_cons_prim]
        exact List.mem_cons_of_mem _ htl
      | obj kvs' =>
        rw [flatLeavesArr_cons_obj]
        exact List.mem_append_right _ htl
      | arr xs' =>
        rw [flatLeavesArr_cons_arr]
        exact List.mem_append_right _ htl

/-! ## Claims -/

/-- C1 (counterexample): flattening `[ {"a":1}, {"a":2} ]` with the default
separators does NOT produce `{"0__a": 1, "1__a": 2}` as the claim states: the
separator is chosen by the kind of the key being appended (`"a"`, an object
key, hence `dict_sep`), so the code produces `{"0.a": 1, "1.a": 2}` and the
key `"0__a"` does not occur at all. -/
theorem C1_counterexample :
    flatten "." "__" (Json.arr [Json.obj [("a", Json.prim (Scalar.int 1))],
        Json.obj [("a", Json.prim (Scalar.int 2))]]) ""
      = [("0.a", Scalar.int 1), ("1.a", Scalar.int 2)] ∧
    "0__a" ∉ keysOf (flatten "." "__" (Json.arr [Json.obj [("a", Json.prim (Scalar.int 1))],
        Json.obj [("a", Json.prim (Scalar.int 2))]]) "") := by
  decide

/-- C1 (amended): a top-level array is reinterpreted as an integer-keyed
object and handled identically to an object, and
`[ {"a":1}, {"a":2} ]` flattens with the default separators to
`{"0.a": 1, "1.a": 2}`: the separator placed before the inner segment `"a"`
is `dict_sep`, because the separator is chosen by the kind of the segment
that follows it. -/
theorem C1_array_reinterpretation :
    flatten "." "__" (Json.arr [Json.obj [("a", Json.prim (Scalar.int 1))],
        Json.obj [("a", Json.prim (Scalar.int 2))]]) ""
      = [("0.a", Scalar.int 1), ("1.a", Scalar.int 2)] ∧
    (∀ ds ls : String, joinKey ds ls "0" (JKey.name "a") = "0" ++ ds ++ "a") := by
  refine ⟨by decide, ?_⟩
  intro ds ls
  simp [joinKey, keySep, keyStr]

/-- C2 (counterexample): two distinct leaf paths of
`{"a": {"b": 1}, "a.b": 2}` synthesize the same flattened key `"a.b"` under
the default separators, so the key↔leaf correspondence is not one-to-one:
the flattened mapping has a single entry for the two leaves (last write
wins). -/
theorem C2_counterexample :
    leafPaths (Json.obj [("a", Json.obj [("b", Json.prim (Scalar.int 1))]),
        ("a.b", Json.prim (Scalar.int 2))])
      = [([JKey.name "a", JKey.name "b"], Scalar.int 1), ([JKey.name "a.b"], Scalar.int 2)] ∧
    keyOfPath "." "__" [JKey.name "a", JKey.name "b"] = keyOfPath "." "__" [JKey.name "a.b"] ∧
    [JKey.name "a", JKey.name "b"] ≠ [JKey.name "a.b"] ∧
    flatten "." "__" (Json.obj [("a", Json.obj [("b", Json.prim (Scalar.int 1))]),
        ("a.b", Json.prim (Scalar.int 2))]) ""
      = [("a.b", Scalar.int 2)] := by
  decide

/-- C2 (amended): every entry of the flattened mapping corresponds to at
least one leaf scalar of the source tree — its key is the synthesized key of
some leaf path and its value is that leaf's scalar — but distinct leaf paths
may synthesize the same flattened key, in which case the last write wins. -/
theorem C2_leaf_key_correspondence (ds ls : String) (j : Json) (e : String × Scalar)
    (h : e ∈ flatten ds ls j "") :
    ∃ q ∈ leafPaths j, keyOfPath ds ls q.1 = e.1 ∧ q.2 = e.2 := by
  have h1 := flatten_mem_sub ds ls j "" e h
  rw [flatLeaves_eq_leafPaths ds ls j ""] at h1
  obtain ⟨q, hq, hqe⟩ := List.mem_map.mp h1
  refine ⟨q, hq, ?_, ?_⟩
  · have := congrArg Prod.fst hqe
    simpa [keyOfPath] using this
  · have := congrArg Prod.snd hqe
    simpa using this

/-- C2 witness: the sole entry of the flattened `{"a": null}` corresponds to
a leaf path of the source tree. -/
theorem C2_leaf_key_correspondence_witness :
    ∃ q ∈ leafPaths (Json.obj [("a", Json.prim Scalar.null)]),
      keyOfPath "." "__" q.1 = "a" ∧ q.2 = Scalar.null :=
  C2_leaf_key_correspondence "." "__" (Json.obj [("a", Json.prim Scalar.null)])
    ("a", Scalar.null) (by decide)

/-- C3 (code bug): a CSV source with a header row and zero data rows makes
the `try` body of `convert()` raise `ValueError` (the intended `EmptyInput`
classification, line 69 of `csv2json.py`), but that exception is caught by
the blanket `except Exception` clause of the same `try` statement and
re-raised as `RuntimeError("Unexpected error during conversion: …")` — the
generic `ConversionFailed` wrapper — contradicting the spec's `EmptyInput`
taxonomy entry. -/
theorem C3_empty_csv_misclassified :
    convertBody ["name,age"] = .error .valueError ∧
    reclassifyConv .valueError = .runtimeError ∧
    convert ⟨false, false, ["name,age"]⟩ = .error .runtimeError :=
  ⟨rfl, rfl, rfl⟩

/-- C4: `{"a": [1,2]}` with `dict_sep="."` and `list_sep="__"` flattens to
`{"a__0": 1, "a__1": 2}`, and in general the separator placed before a
segment is `list_sep` when that segment is an integer array index and
`dict_sep` when it is an object key. -/
theorem C4_separator_choice (ds ls pk k : String) (i : Nat) (hpk : pk ≠ "") :
    flatten "." "__" (Json.obj [("a", Json.arr [Json.prim (Scalar.int 1),
        Json.prim (Scalar.int 2)])]) ""
      = [("a__0", Scalar.int 1), ("a__1", Scalar.int 2)] ∧
    joinKey ds ls pk (JKey.idx i) = pk ++ ls ++ toString i ∧
    joinKey ds ls pk (JKey.name k) = pk ++ ds ++ k := by
  refine ⟨by decide, ?_, ?_⟩
  · simp [joinKey, keySep, keyStr, hpk]
  · simp [joinKey, keySep, keyStr, hpk]

/-- C4 witness: the separator rule evaluated at the parent key `"a"`. -/
theorem C4_separator_choice_witness :
    flatten "." "__" (Json.obj [("a", Json.arr [Json.prim (Scalar.int 1),
        Json.prim (Scalar.int 2)])]) ""
      = [("a__0", Scalar.int 1), ("a__1", Scalar.int 2)] ∧
    joinKey "." "__" "a" (JKey.idx 0) = "a" ++ "__" ++ toString 0 ∧
    joinKey "." "__" "a" (JKey.name "b") = "a" ++ "." ++ "b" :=
  C4_separator_choice "." "__" "a" "b" 0 (by decide)

/-- C5: converting a CSV source with header `name,age` and single data row
`alice,30` (destination absent) produces the single record
`{"name": "alice", "age": "30"}`: one object per row, cell values kept as
strings, field order equal to the header order. -/
theorem C5_csv_end_to_end :
    convert ⟨false, false, ["name,age", "alice,30"]⟩
      = .ok [[("name", "alice"), ("age", "30")]] ∧
    (csvParse ["name,age", "alice,30"]).map (fun r => r.map Prod.fst)
      = [splitComma "name,age"] :=
  ⟨rfl, rfl⟩

/-- C6: for both tools, an existing destination together with a false
overwrite flag fails with `FileExistsError` (`AlreadyExists`) before
anything is read or written, while a true overwrite flag lets the
(otherwise valid) conversion succeed and produce the output that replaces
the file. -/
theorem C6_overwrite_gating (ds ls : String) (c : ConvInput) (r : FlatRun) :
    (c.destExists = true → c.over_write = false → convert c = .error .fileExistsError) ∧
    (c.over_write = true → csvParse c.srcLines ≠ [] → convert c = .ok (csvParse c.srcLines)) ∧
    (r.sourceExists = true → asciiLower r.sourceSuffix = ".json" →
      r.outputExists = true → r.overwrite = false →
      appMain ds ls r = .error .fileExistsError) ∧
    (r.sourceExists = true → asciiLower r.sourceSuffix = ".json" → r.overwrite = true →
      appMain ds ls r = .ok (flatten ds ls r.data "")) := by
  refine ⟨?_, ?_, ?_, ?_⟩
  · intro h1 h2
    simp [convert, h1, h2]
  · intro h1 h2
    have hne : (csvParse c.srcLines).isEmpty = false := by
      cases hcs : csvParse c.srcLines with
      | nil => exact absurd hcs h2
      | cons a l => simp
    simp [convert, convertBody, h1, hne]
  · intro h1 h2 h3 h4
    simp [appMain, h1, h2, h3, h4]
  · intro h1 h2 h3
    simp [appMain, h1, h2, h3]

/-- C6 witness: the four gating outcomes at concrete states. -/
theorem C6_overwrite_gating_witness :
    convert ⟨true, false, []⟩ = .error .fileExistsError ∧
    convert ⟨true, true, ["h", "1"]⟩ = .ok (csvParse ["h", "1"]) ∧
    appMain "." "__" ⟨true, ".json", true, false, Json.obj []⟩ = .error .fileExistsError ∧
    appMain "." "__" ⟨true, ".json", true, true, Json.obj []⟩
      = .ok (flatten "." "__" (Json.obj []) "") := by
  refine ⟨?_, ?_, ?_, ?_⟩
  · exact (C6_overwrite_gating "." "__" ⟨true, false, []⟩
      ⟨true, ".json", true, false, Json.obj []⟩).1 rfl rfl
  · exact (C6_overwrite_gating "." "__" ⟨true, true, ["h", "1"]⟩
      ⟨true, ".json", true, false, Json.obj []⟩).2.1 rfl (by decide)
  · exact (C6_overwrite_gating "." "__" ⟨true, false, []⟩
      ⟨true, ".json", true, false, Json.obj []⟩).2.2.1 rfl (by decide) rfl rfl
  · exact (C6_overwrite_gating "." "__" ⟨true, false, []⟩
      ⟨true, ".json", true, true, Json.obj []⟩).2.2.2 rfl (by decide) rfl

/-- C7: flattening the empty object, the empty array (with any parent key,
i.e. at any nesting depth) or a bare scalar (with empty parent key) yields
the empty mapping, and an entry holding an empty object or empty array can
be dropped from an object without changing the flattening — empty
containers contribute no keys. -/
theorem C7_empty_inputs (ds ls pk k : String) (s : Scalar)
    (pre post : List (String × Json)) :
    flatten ds ls (Json.obj []) pk = [] ∧
    flatten ds ls (Json.arr []) pk = [] ∧
    flatten ds ls (Json.prim s) "" = [] ∧
    flatten ds ls (Json.obj (pre ++ (k, Json.obj []) :: post)) pk
      = flatten ds ls (Json.obj (pre ++ post)) pk ∧
    flatten ds ls (Json.obj (pre ++ (k, Json.arr []) :: post)) pk
      = flatten ds ls (Json.obj (pre ++ post)) pk := by
  refine ⟨rfl, rfl, rfl, ?_, ?_⟩
  · rw [flatten_obj, flatten_obj, flattenObj_append, flattenObj_append,
      flattenObj_cons_obj]
    simp
  · rw [flatten_obj, flatten_obj, flattenObj_append, flattenObj_append,
      flattenObj_cons_arr]
    simp

/-- C8: flattening an already-flat single-level mapping (string keys, only
scalar values) with empty parent key returns it unchanged. -/
theorem C8_flat_map_idempotent (ds ls : String) (m : List (String × Scalar))
    (h : (m.map Prod.fst).Nodup) :
    flatten ds ls (Json.obj (m.map (fun p => (p.1, Json.prim p.2)))) "" = m := by
  rw [flatten_obj, flattenObj_flat ds ls m [] (by simp [keysOf]) h]
  simp

/-- C8 witness: re-flattening the flat map `{"a": 1, "b": "x"}` returns it
unchanged. -/
theorem C8_flat_map_idempotent_witness :
    flatten "." "__" (Json.obj ([("a", Scalar.int 1), ("b", Scalar.str "x")].map
      (fun p => (p.1, Json.prim p.2)))) "" = [("a", Scalar.int 1), ("b", Scalar.str "x")] :=
  C8_flat_map_idempotent "." "__" [("a", Scalar.int 1), ("b", Scalar.str "x")] (by decide)

/-- C9: with an empty parent key, a depth-1 scalar leaf under top-level key
`k` is assigned exactly the key `str(k)` — no separator is inserted before a
top-level segment — for any choice of separators (the object conjunct holds
for a second, unrelated pair of separators as well), and a one-segment path
synthesizes to the bare segment. -/
theorem C9_depth1_keys (ds ls ds2 ls2 : String) (kvs : List (String × Json))
    (xs : List Json) (k : String) (i : Nat) (s t : Scalar) :
    ((k, Json.prim s) ∈ kvs →
      (k, s) ∈ flatLeaves ds ls (Json.obj kvs) "" ∧
      k ∈ keysOf (flatten ds ls (Json.obj kvs) "") ∧
      k ∈ keysOf (flatten ds2 ls2 (Json.obj kvs) "")) ∧
    (xs[i]? = some (Json.prim t) →
      (toString i, t) ∈ flatLeaves ds ls (Json.arr xs) "" ∧
      toString i ∈ keysOf (flatten ds ls (Json.arr xs) "")) ∧
    (∀ kk : JKey, keyOfPath ds ls [kk] = keyStr kk) := by
  refine ⟨?_, ?_, ?_⟩
  · intro h
    have hmem : ∀ ds' ls' : String, (k, s) ∈ flatLeaves ds' ls' (Json.obj kvs) "" := by
      intro ds' ls'
      rw [flatLeaves_obj]
      have h1 := mem_flatLeavesObj_of_entry ds' ls' "" k s kvs h
      rwa [joinKey_empty] at h1
    have hkey : ∀ ds' ls' : String, k ∈ keysOf (flatten ds' ls' (Json.obj kvs) "") := by
      intro ds' ls'
      refine flatten_leaf_keys ds' ls' (Json.obj kvs) "" k ?_
      exact List.mem_map.mpr ⟨(k, s), hmem ds' ls', rfl⟩
    exact ⟨hmem ds ls, hkey ds ls, hkey ds2 ls2⟩
  · intro h
    have hmem : (toString i, t) ∈ flatLeaves ds ls (Json.arr xs) "" := by
      rw [flatLeaves_arr]
      have h1 := mem_flatLeavesArr_of_get ds ls "" t xs i 0 h
      rw [joinKey_empty] at h1
      simpa [keyStr] using h1
    refine ⟨hmem, ?_⟩
    refine flatten_leaf_keys ds ls (Json.arr xs) "" (toString i) ?_
    exact List.mem_map.mpr ⟨(toString i, t), hmem, rfl⟩
  · intro kk
    simp [keyOfPath, joinKey_empty]

/-- C9 witness: depth-1 keys of `{"a": 1}` and `[2]` for two separator
pairs. -/
theorem C9_depth1_keys_witness :
    ("a", Scalar.int 1) ∈ flatLeaves "." "__" (Json.obj [("a", Json.prim (Scalar.int 1))]) "" ∧
    "a" ∈ keysOf (flatten "." "__" (Json.obj [("a", Json.prim (Scalar.int 1))]) "") ∧
    "a" ∈ keysOf (flatten ":" "--" (Json.obj [("a", Json.prim (Scalar.int 1))]) "") ∧
    (toString 0, Scalar.int 2) ∈ flatLeaves "." "__" (Json.arr [Json.prim (Scalar.int 2)]) "" ∧
    toString 0 ∈ keysOf (flatten "." "__" (Json.arr [Json.prim (Scalar.int 2)]) "") := by
  have ha := (C9_depth1_keys "." "__" ":" "--" [("a", Json.prim (Scalar.int 1))]
    [Json.prim (Scalar.int 2)] "a" 0 (Scalar.int 1) (Scalar.int 2)).1
    (List.mem_cons_self _ _)
  have hb := (C9_depth1_keys "." "__" ":" "--" [("a", Json.prim (Scalar.int 1))]
    [Json.prim (Scalar.int 2)] "a" 0 (Scalar.int 1) (Scalar.int 2)).2.1 rfl
  exact ⟨ha.1, ha.2.1, ha.2.2, hb.1, hb.2⟩

/-- C10: for every finite JSON tree, `flatten` with empty parent key is a
total function whose result is a genuine mapping (pairwise-distinct keys)
with at most one entry per leaf of the source tree; the embedding is pure,
matching the code, which only reads its input. -/
theorem C10_flatten_total (ds ls : String) (j : Json) :
    (keysOf (flatten ds ls j "")).Nodup ∧
    (flatten ds ls j "").length ≤ (leafPaths j).length := by
  refine ⟨nodup_keysOf_flatten ds ls "" j, ?_⟩
  have h1 := flatten_length_le ds ls j ""
  rw [flatLeaves_eq_leafPaths ds ls j ""] at h1
  simpa using h1

end MiniTools
